import Mathlib

/-!
Verification of the rust_brain compilation pipeline: a shallow embedding of
the lexer, parser, x86-64 assembler and JIT compiler from `src/main.rs`,
together with theorems settling the specification claims.

Byte streams are modelled as `List Nat` (each element a byte value), the
append-only machine-code buffer as `List Nat`, and fallible operations
return `Except`/`Option`.  Loops whose termination is not structural are
implemented with a fuel parameter that is proven sufficient; exact
unfolding lemmas re-establish the loop's defining equations.
-/

namespace RustBrain

/-- `(line, column)`, both one-based, as in `struct Location`. -/
structure Location where
  line : Nat
  column : Nat
deriving DecidableEq, Repr

/-- A lexer token: one in-alphabet byte together with its location. -/
structure Token where
  char : Nat
  location : Location
deriving DecidableEq, Repr

/-- The eight coalesced instruction kinds of `enum Instruction`. -/
inductive Instruction where
  | AddrRight (n : Nat)
  | AddrLeft (n : Nat)
  | Inc (k : Nat)
  | Dec (k : Nat)
  | Output (n : Nat)
  | Input (n : Nat)
  | JmpForward (t : Nat)
  | JmpBack (t : Nat)
deriving DecidableEq, Repr

/-- Lexer state: remaining source bytes, current location, one-slot lookahead
(`struct Lexer`). -/
structure LexerState where
  source : List Nat
  location : Location
  peeked : Option Token
deriving DecidableEq, Repr

/-- `Lexer::is_char_in_language`: membership in the alphabet `<>+-.,[]`
(byte values 60 62 43 45 46 44 91 93). -/
def is_char_in_language (b : Nat) : Bool :=
  [60, 62, 43, 45, 46, 44, 91, 93].contains b

/-- Advance the lexer location over one byte: newline resets the column to 1
and bumps the line, every other byte bumps the column (`Lexer::chop`'s
bookkeeping). -/
def advanceLoc (loc : Location) (b : Nat) : Location :=
  if b = 10 then ⟨loc.line + 1, 1⟩ else ⟨loc.line, loc.column + 1⟩

/-- The byte-skipping loop inside `Lexer::chop`: read bytes, skipping
everything outside the alphabet, until an alphabet byte or end of input.
Returns the token (carrying the location *before* its byte was consumed),
the remaining bytes and the updated location. -/
def chopLoop : List Nat → Location → Option Token × List Nat × Location
  | [], loc => (none, [], loc)
  | b :: rest, loc =>
    if is_char_in_language b then
      (some ⟨b, loc⟩, rest, advanceLoc loc b)
    else
      chopLoop rest (advanceLoc loc b)

/-- `Lexer::chop`: hand out the peeked token if present, otherwise run the
skipping read loop. -/
def chop (s : LexerState) : Option Token × LexerState :=
  match s.peeked with
  | some t => (some t, { s with peeked := none })
  | none =>
    match chopLoop s.source s.location with
    | (res, rest, loc) => (res, ⟨rest, loc, none⟩)

/-- `Lexer::peek`: return the peeked token if present, otherwise chop one and
store it in the lookahead slot. -/
def peek (s : LexerState) : Option Token × LexerState :=
  match s.peeked with
  | some t => (some t, s)
  | none =>
    let r := chop s
    (r.1, { r.2 with peeked := r.1 })

/-- Termination measure for the lexer loops: two per source byte plus one for
an occupied lookahead slot. -/
def lexMeasure (s : LexerState) : Nat :=
  2 * s.source.length + (if s.peeked.isSome then 1 else 0)

/-- `Lexer::chop_while`, fueled: count and consume a maximal run of tokens
whose char equals `c`. -/
def chopWhileFuel (c : Nat) : Nat → LexerState → Nat × LexerState
  | 0, s => (0, s)
  | fuel + 1, s =>
    match peek s with
    | (some cand, s1) =>
      if cand.char = c then
        let s2 := (chop s1).2
        let r := chopWhileFuel c fuel s2
        (r.1 + 1, r.2)
      else (0, s1)
    | (none, s1) => (0, s1)

/-- `Lexer::chop_while` with always-sufficient fuel (see
`chop_while_eq` for the loop's defining equation). -/
def chop_while (c : Nat) (s : LexerState) : Nat × LexerState :=
  chopWhileFuel c (lexMeasure s + 1) s

/-- Parse errors: `]` with no matching opener (with its location), and the
`unreachable!` arm for tokens outside the alphabet. -/
inductive ParseError where
  | unmatchedClosing (line column : Nat)
  | unreachableToken
deriving DecidableEq, Repr

/-- `struct Parser`: the forward-jump stack and the program built so far. -/
structure ParserState where
  forward_jumps : List Nat
  program : List Instruction
deriving DecidableEq, Repr

/-- `Parser::parse_instruction`: translate one token, coalescing runs via
`chop_while`; `[` pushes the current program length and emits a placeholder,
`]` pops it, back-patches the opener and emits the back jump. -/
def parse_instruction (p : ParserState) (lx : LexerState) (t : Token) :
    Except ParseError (Instruction × ParserState × LexerState) :=
  if t.char = 60 then
    let r := chop_while 60 lx
    .ok (.AddrLeft (1 + r.1), p, r.2)
  else if t.char = 62 then
    let r := chop_while 62 lx
    .ok (.AddrRight (1 + r.1), p, r.2)
  else if t.char = 43 then
    let r := chop_while 43 lx
    .ok (.Inc ((1 + r.1) % 255), p, r.2)
  else if t.char = 45 then
    let r := chop_while 45 lx
    .ok (.Dec ((1 + r.1) % 255), p, r.2)
  else if t.char = 46 then
    let r := chop_while 46 lx
    .ok (.Output (1 + r.1), p, r.2)
  else if t.char = 44 then
    let r := chop_while 44 lx
    .ok (.Input (1 + r.1), p, r.2)
  else if t.char = 91 then
    .ok (.JmpForward 0,
         { p with forward_jumps := p.program.length :: p.forward_jumps }, lx)
  else if t.char = 93 then
    match p.forward_jumps with
    | target :: rest =>
      .ok (.JmpBack (target + 1),
           { forward_jumps := rest,
             program := p.program.set target (.JmpForward (p.program.length + 1)) },
           lx)
    | [] => .error (.unmatchedClosing t.location.line t.location.column)
  else
    .error .unreachableToken

/-- The `while let Some(token) = lexer.chop()` loop of
`Parser::parse_program`, fueled. -/
def parseLoopFuel : Nat → ParserState → LexerState → Except ParseError (List Instruction)
  | 0, p, _ => .ok p.program
  | fuel + 1, p, s =>
    match chop s with
    | (none, _) => .ok p.program
    | (some t, s1) =>
      match parse_instruction p s1 t with
      | .error e => .error e
      | .ok (inst, p2, s2) =>
        parseLoopFuel fuel { p2 with program := p2.program ++ [inst] } s2

/-- The parse loop with always-sufficient fuel (see `parseLoop_eq`). -/
def parseLoop (p : ParserState) (s : LexerState) : Except ParseError (List Instruction) :=
  parseLoopFuel (lexMeasure s + 1) p s

/-- `Parser::parse_program`: reset state and run the loop from location
`(1, 1)` with an empty lookahead. -/
def parse_program (src : List Nat) : Except ParseError (List Instruction) :=
  parseLoop ⟨[], []⟩ ⟨src, ⟨1, 1⟩, none⟩

instance {e a : Type} [DecidableEq e] [DecidableEq a] : DecidableEq (Except e a) := fun x y =>
  match x, y with
  | .ok u, .ok v => decidable_of_iff (u = v) (by simp)
  | .error u, .error v => decidable_of_iff (u = v) (by simp)
  | .ok _, .error _ => isFalse (by simp)
  | .error _, .ok _ => isFalse (by simp)

/-! ### Fuel sufficiency: the fueled loops satisfy their defining equations -/

lemma chopLoop_rest_length (src : List Nat) (loc : Location) :
    (chopLoop src loc).2.1.length ≤ src.length := by
  induction src generalizing loc with
  | nil => simp [chopLoop]
  | cons b rest ih =>
    simp only [chopLoop]
    by_cases hb : is_char_in_language b
    · simp [hb]
    · simp only [hb, if_neg, Bool.false_eq_true]
      exact le_trans (ih (advanceLoc loc b)) (by simp)

lemma chopLoop_some_length (src : List Nat) (loc : Location) (t : Token)
    (rest : List Nat) (loc' : Location)
    (h : chopLoop src loc = (some t, rest, loc')) : rest.length < src.length := by
  induction src generalizing loc with
  | nil => simp [chopLoop] at h
  | cons b tl ih =>
    simp only [chopLoop] at h
    by_cases hb : is_char_in_language b
    · rw [if_pos hb] at h
      simp only [Prod.mk.injEq] at h
      obtain ⟨-, rfl, -⟩ := h
      simp
    · rw [if_neg (by simp [hb])] at h
      exact lt_of_lt_of_le (ih (advanceLoc loc b) h) (by simp)

lemma chop_peeked_some (s : LexerState) (tk : Token) (hpk : s.peeked = some tk) :
    chop s = (some tk, { s with peeked := none }) := by
  unfold chop
  rw [hpk]

lemma chop_peeked_none (s : LexerState) (hpk : s.peeked = none) :
    chop s = ((chopLoop s.source s.location).1,
      ⟨(chopLoop s.source s.location).2.1, (chopLoop s.source s.location).2.2, none⟩) := by
  unfold chop
  rw [hpk]

lemma chop_some_measure (s : LexerState) (t : Token) (s' : LexerState)
    (h : chop s = (some t, s')) : lexMeasure s' < lexMeasure s := by
  cases hpk : s.peeked with
  | some tk =>
    rw [chop_peeked_some s tk hpk] at h
    simp only [Prod.mk.injEq] at h
    obtain ⟨-, rfl⟩ := h
    simp [lexMeasure, hpk]
  | none =>
    rw [chop_peeked_none s hpk] at h
    simp only [Prod.mk.injEq] at h
    obtain ⟨h1, rfl⟩ := h
    rcases hcl : chopLoop s.source s.location with ⟨res, rest, loc⟩
    have hlen : rest.length < s.source.length := by
      apply chopLoop_some_length s.source s.location t rest loc
      rw [hcl]
      rw [hcl] at h1
      simp only at h1
      rw [h1]
    simp only [lexMeasure, hpk, hcl]
    simp
    omega

lemma chop_clears_peek (s : LexerState) : ((chop s).2).peeked = none := by
  cases hpk : s.peeked with
  | some tk => rw [chop_peeked_some s tk hpk]
  | none => rw [chop_peeked_none s hpk]

lemma chop_measure_le (s : LexerState) : lexMeasure (chop s).2 ≤ lexMeasure s := by
  cases hpk : s.peeked with
  | some tk =>
    rw [chop_peeked_some s tk hpk]
    simp [lexMeasure, hpk]
  | none =>
    rw [chop_peeked_none s hpk]
    have := chopLoop_rest_length s.source s.location
    simp [lexMeasure, hpk]
    omega

lemma peek_result (s : LexerState) :
    peek s = ((chop s).1, if s.peeked.isSome then s
      else { (chop s).2 with peeked := (chop s).1 }) := by
  unfold peek
  cases hpk : s.peeked with
  | some tk =>
    simp only [Option.isSome_some, if_pos]
    rw [chop_peeked_some s tk hpk]
  | none =>
    simp [hpk]

lemma peek_measure (s : LexerState) (r : Option Token) (s1 : LexerState)
    (h : peek s = (r, s1)) : lexMeasure s1 ≤ lexMeasure s := by
  rw [peek_result] at h
  simp only [Prod.mk.injEq] at h
  obtain ⟨-, rfl⟩ := h
  by_cases hpk : s.peeked.isSome
  · rw [if_pos hpk]
  · rw [if_neg hpk]
    have h1 := chop_measure_le s
    have h2 := chop_clears_peek s
    cases hc : (chop s).1 with
    | none =>
      simp only [lexMeasure, hc] at h1 ⊢
      simp [h2] at h1 ⊢
      omega
    | some tk =>
      have hlt : lexMeasure (chop s).2 < lexMeasure s := by
        apply chop_some_measure s tk
        rw [← hc]
      simp only [lexMeasure, hc] at hlt ⊢
      simp [h2] at hlt ⊢
      omega

lemma peek_some_chop_measure (s : LexerState) (cand : Token) (s1 : LexerState)
    (h : peek s = (some cand, s1)) : lexMeasure (chop s1).2 < lexMeasure s := by
  rw [peek_result] at h
  simp only [Prod.mk.injEq] at h
  obtain ⟨h1, rfl⟩ := h
  by_cases hpk : s.peeked.isSome
  · rw [if_pos hpk]
    obtain ⟨tk, htk⟩ := Option.isSome_iff_exists.mp hpk
    rw [chop_peeked_some s tk htk]
    simp [lexMeasure, htk]
  · rw [if_neg hpk]
    have hspk : ({ (chop s).2 with peeked := (chop s).1 } : LexerState).peeked
        = some cand := by simp [h1]
    rw [chop_peeked_some _ cand hspk]
    have hlt : lexMeasure (chop s).2 < lexMeasure s := by
      apply chop_some_measure s cand
      rw [← h1]
    have h2 := chop_clears_peek s
    simp only [lexMeasure] at hlt ⊢
    simp [h2] at hlt ⊢
    omega

lemma chopWhileFuel_congr (c : Nat) :
    ∀ (f1 f2 : Nat) (s : LexerState), lexMeasure s < f1 → lexMeasure s < f2 →
      chopWhileFuel c f1 s = chopWhileFuel c f2 s := by
  intro f1
  induction f1 with
  | zero => intro f2 s h1 h2; omega
  | succ f1 ih =>
    intro f2 s h1 h2
    obtain ⟨g, rfl⟩ : ∃ g, f2 = g + 1 := ⟨f2 - 1, by omega⟩
    simp only [chopWhileFuel]
    rcases hp : peek s with ⟨r, s1⟩
    cases r with
    | none => simp
    | some cand =>
      simp only
      by_cases hc : cand.char = c
      · rw [if_pos hc, if_pos hc]
        have hm := peek_some_chop_measure s cand s1 hp
        rw [ih g ((chop s1).2) (by omega) (by omega)]
      · rw [if_neg hc, if_neg hc]

/-- The loop equation of `Lexer::chop_while`: peek; on a matching token, chop
it and continue, adding one to the count; otherwise stop with count 0. -/
lemma chop_while_eq (c : Nat) (s : LexerState) :
    chop_while c s =
      match peek s with
      | (some cand, s1) =>
        if cand.char = c then
          ((chop_while c (chop s1).2).1 + 1, (chop_while c (chop s1).2).2)
        else (0, s1)
      | (none, s1) => (0, s1) := by
  show chopWhileFuel c (lexMeasure s + 1) s = _
  simp only [chopWhileFuel]
  rcases hp : peek s with ⟨r, s1⟩
  cases r with
  | none => simp
  | some cand =>
    simp only
    by_cases hc : cand.char = c
    · rw [if_pos hc, if_pos hc]
      have hm := peek_some_chop_measure s cand s1 hp
      rw [chopWhileFuel_congr c (lexMeasure s) (lexMeasure (chop s1).2 + 1)
        ((chop s1).2) (by omega) (by omega)]
      rfl
    · rw [if_neg hc, if_neg hc]

lemma chopWhileFuel_measure (c : Nat) :
    ∀ (f : Nat) (s : LexerState), lexMeasure (chopWhileFuel c f s).2 ≤ lexMeasure s := by
  intro f
  induction f with
  | zero => intro s; simp [chopWhileFuel]
  | succ f ih =>
    intro s
    simp only [chopWhileFuel]
    rcases hp : peek s with ⟨r, s1⟩
    cases r with
    | none => exact peek_measure s none s1 hp
    | some cand =>
      simp only
      by_cases hc : cand.char = c
      · rw [if_pos hc]
        have h1 := ih ((chop s1).2)
        have h2 := peek_some_chop_measure s cand s1 hp
        simp only
        omega
      · rw [if_neg hc]
        exact peek_measure s (some cand) s1 hp

lemma chop_while_measure (c : Nat) (s : LexerState) :
    lexMeasure (chop_while c s).2 ≤ lexMeasure s :=
  chopWhileFuel_measure c (lexMeasure s + 1) s

lemma parse_instruction_measure (p : ParserState) (lx : LexerState) (t : Token)
    (inst : Instruction) (p2 : ParserState) (s2 : LexerState)
    (h : parse_instruction p lx t = .ok (inst, p2, s2)) :
    lexMeasure s2 ≤ lexMeasure lx := by
  unfold parse_instruction at h
  split_ifs at h <;>
    try (simp only [Except.ok.injEq, Prod.mk.injEq] at h; obtain ⟨-, -, rfl⟩ := h)
  all_goals first
    | exact chop_while_measure _ lx
    | exact le_rfl
    | (rcases hfj : p.forward_jumps with - | ⟨target, rest⟩ <;> rw [hfj] at h
       · simp at h
       · simp only [Except.ok.injEq, Prod.mk.injEq] at h
         obtain ⟨-, -, rfl⟩ := h
         exact le_rfl)
    | simp at h

lemma parseLoopFuel_congr :
    ∀ (f1 f2 : Nat) (p : ParserState) (s : LexerState),
      lexMeasure s < f1 → lexMeasure s < f2 →
      parseLoopFuel f1 p s = parseLoopFuel f2 p s := by
  intro f1
  induction f1 with
  | zero => intro f2 p s h1 h2; omega
  | succ f1 ih =>
    intro f2 p s h1 h2
    obtain ⟨g, rfl⟩ : ∃ g, f2 = g + 1 := ⟨f2 - 1, by omega⟩
    simp only [parseLoopFuel]
    rcases hcp : chop s with ⟨r, s1⟩
    cases r with
    | none => simp
    | some t =>
      simp only
      rcases hpi : parse_instruction p s1 t with e | ⟨inst, p2, s2⟩
      · simp
      · simp only
        have hm1 : lexMeasure s1 < lexMeasure s := chop_some_measure s t s1 hcp
        have hm2 : lexMeasure s2 ≤ lexMeasure s1 :=
          parse_instruction_measure p s1 t inst p2 s2 hpi
        exact ih g _ s2 (by omega) (by omega)

/-- The loop equation of the `while let Some(token)` loop in
`Parser::parse_program`. -/
lemma parseLoop_eq (p : ParserState) (s : LexerState) :
    parseLoop p s =
      match chop s with
      | (none, _) => .ok p.program
      | (some t, s1) =>
        match parse_instruction p s1 t with
        | .error e => .error e
        | .ok (inst, p2, s2) =>
          parseLoop { p2 with program := p2.program ++ [inst] } s2 := by
  show parseLoopFuel (lexMeasure s + 1) p s = _
  simp only [parseLoopFuel]
  rcases hcp : chop s with ⟨r, s1⟩
  cases r with
  | none => simp
  | some t =>
    simp only
    rcases hpi : parse_instruction p s1 t with e | ⟨inst, p2, s2⟩
    · simp
    · simp only
      have hm1 : lexMeasure s1 < lexMeasure s := chop_some_measure s t s1 hcp
      have hm2 : lexMeasure s2 ≤ lexMeasure s1 :=
        parse_instruction_measure p s1 t inst p2 s2 hpi
      exact parseLoopFuel_congr (lexMeasure s) (lexMeasure s2 + 1) _ s2
        (by omega) (by omega)

/-! ### The lexer through the lens of its in-alphabet byte stream -/

/-- The in-alphabet bytes of a byte list, in order. -/
def byteFilter (l : List Nat) : List Nat := l.filter (fun b => is_char_in_language b)

/-- The stream of token chars a lexer state will yield: the lookahead slot
followed by the in-alphabet bytes of the remaining source. -/
def lexChars (s : LexerState) : List Nat :=
  (match s.peeked with | some t => [t.char] | none => []) ++ byteFilter s.source

lemma chopLoop_none_rest (src : List Nat) (loc : Location)
    (h : (chopLoop src loc).1 = none) : (chopLoop src loc).2.1 = [] := by
  induction src generalizing loc with
  | nil => rfl
  | cons b tl ih =>
    simp only [chopLoop] at h ⊢
    by_cases hb : is_char_in_language b
    · rw [if_pos hb] at h
      simp at h
    · rw [if_neg (by simp [hb])] at h ⊢
      exact ih (advanceLoc loc b) h

lemma chopLoop_of_filter_nil (src : List Nat) (loc : Location)
    (h : byteFilter src = []) : ∃ loc', chopLoop src loc = (none, [], loc') := by
  induction src generalizing loc with
  | nil => exact ⟨loc, rfl⟩
  | cons b tl ih =>
    simp only [byteFilter, List.filter] at h
    by_cases hb : is_char_in_language b
    · rw [hb] at h
      simp at h
    · rw [show is_char_in_language b = false by simp [hb]] at h
      simp only [chopLoop]
      rw [if_neg (by simp [hb])]
      exact ih (advanceLoc loc b) h

lemma chopLoop_of_filter_cons (src : List Nat) (loc : Location) (c : Nat) (cs : List Nat)
    (h : byteFilter src = c :: cs) :
    ∃ tloc rest loc', chopLoop src loc = (some ⟨c, tloc⟩, rest, loc') ∧
      byteFilter rest = cs := by
  induction src generalizing loc with
  | nil => simp [byteFilter] at h
  | cons b tl ih =>
    simp only [byteFilter, List.filter] at h
    by_cases hb : is_char_in_language b
    · rw [hb] at h
      simp only [List.cons.injEq] at h
      obtain ⟨rfl, rfl⟩ := h
      refine ⟨loc, tl, advanceLoc loc b, ?_, rfl⟩
      simp only [chopLoop]
      rw [if_pos hb]
    · rw [show is_char_in_language b = false by simp [hb]] at h
      obtain ⟨tloc, rest, loc', h1, h2⟩ := ih (advanceLoc loc b) h
      refine ⟨tloc, rest, loc', ?_, h2⟩
      simp only [chopLoop]
      rw [if_neg (by simp [hb])]
      exact h1

lemma lexChars_peeked_some (s : LexerState) (t : Token) (h : s.peeked = some t) :
    lexChars s = t.char :: byteFilter s.source := by
  simp [lexChars, h]

lemma lexChars_peeked_none (s : LexerState) (h : s.peeked = none) :
    lexChars s = byteFilter s.source := by
  simp [lexChars, h]

lemma chop_lexChars_nil (s : LexerState) (h : lexChars s = []) :
    ∃ s', chop s = (none, s') ∧ lexChars s' = [] ∧ s'.peeked = none := by
  cases hpk : s.peeked with
  | some t =>
    rw [lexChars_peeked_some s t hpk] at h
    simp at h
  | none =>
    rw [lexChars_peeked_none s hpk] at h
    obtain ⟨loc', hcl⟩ := chopLoop_of_filter_nil s.source s.location h
    refine ⟨⟨[], loc', none⟩, ?_, by simp [lexChars, byteFilter], rfl⟩
    rw [chop_peeked_none s hpk, hcl]

lemma chop_lexChars_cons (s : LexerState) (c : Nat) (cs : List Nat)
    (h : lexChars s = c :: cs) :
    ∃ loc s', chop s = (some ⟨c, loc⟩, s') ∧ lexChars s' = cs ∧ s'.peeked = none := by
  cases hpk : s.peeked with
  | some t =>
    rw [lexChars_peeked_some s t hpk] at h
    simp only [List.cons.injEq] at h
    obtain ⟨rfl, rfl⟩ := h
    refine ⟨t.location, { s with peeked := none }, ?_, ?_, rfl⟩
    · rw [chop_peeked_some s t hpk]
    · simp [lexChars]
  | none =>
    rw [lexChars_peeked_none s hpk] at h
    obtain ⟨tloc, rest, loc', h1, h2⟩ := chopLoop_of_filter_cons s.source s.location c cs h
    refine ⟨tloc, ⟨rest, loc', none⟩, ?_, ?_, rfl⟩
    · rw [chop_peeked_none s hpk, h1]
    · simp [lexChars, h2]

lemma peek_lexChars_nil (s : LexerState) (h : lexChars s = []) :
    ∃ s', peek s = (none, s') ∧ lexChars s' = [] ∧ s'.peeked = none := by
  cases hpk : s.peeked with
  | some t =>
    rw [lexChars_peeked_some s t hpk] at h
    simp at h
  | none =>
    obtain ⟨s', h1, h2, h3⟩ := chop_lexChars_nil s h
    refine ⟨{ s' with peeked := none }, ?_, ?_, rfl⟩
    · unfold peek
      rw [hpk, h1]
    · rw [lexChars_peeked_none _ rfl]
      rw [lexChars_peeked_none s' h3] at h2
      exact h2

lemma peek_lexChars_cons (s : LexerState) (c : Nat) (cs : List Nat)
    (h : lexChars s = c :: cs) :
    ∃ loc s', peek s = (some ⟨c, loc⟩, s') ∧ lexChars s' = c :: cs ∧
      s'.peeked = some ⟨c, loc⟩ := by
  cases hpk : s.peeked with
  | some t =>
    rw [lexChars_peeked_some s t hpk] at h
    simp only [List.cons.injEq] at h
    obtain ⟨rfl, h2⟩ := h
    refine ⟨t.location, s, ?_, ?_, ?_⟩
    · unfold peek
      rw [hpk]
    · rw [lexChars_peeked_some s t hpk, h2]
    · rw [hpk]
  | none =>
    obtain ⟨loc, s', h1, h2, h3⟩ := chop_lexChars_cons s c cs h
    refine ⟨loc, { s' with peeked := some ⟨c, loc⟩ }, ?_, ?_, rfl⟩
    · unfold peek
      rw [hpk, h1]
    · rw [lexChars_peeked_none s' h3] at h2
      simp [lexChars, h2]

lemma chop_while_run (c : Nat) :
    ∀ (k : Nat) (s : LexerState) (rest : List Nat),
      lexChars s = List.replicate k c ++ rest →
      (∀ d, rest.head? = some d → ¬d = c) →
      ∃ s', chop_while c s = (k, s') ∧ lexChars s' = rest := by
  intro k
  induction k with
  | zero =>
    intro s rest h hd
    simp only [List.replicate, List.nil_append] at h
    rw [chop_while_eq]
    cases rest with
    | nil =>
      obtain ⟨s', h1, h2, -⟩ := peek_lexChars_nil s h
      rw [h1]
      exact ⟨s', rfl, h2⟩
    | cons d ds =>
      obtain ⟨loc, s', h1, h2, -⟩ := peek_lexChars_cons s d ds h
      rw [h1]
      simp only
      rw [if_neg (by exact hd d rfl)]
      exact ⟨s', rfl, h2⟩
  | succ k ih =>
    intro s rest h hd
    rw [show List.replicate (k + 1) c = c :: List.replicate k c from rfl,
      List.cons_append] at h
    obtain ⟨loc, s1, h1, h2, h3⟩ := peek_lexChars_cons s c _ h
    rw [chop_while_eq, h1]
    simp only [if_pos]
    have hch : chop s1 = (some ⟨c, loc⟩, { s1 with peeked := none }) :=
      chop_peeked_some s1 ⟨c, loc⟩ h3
    have h4 : lexChars { s1 with peeked := none } = List.replicate k c ++ rest := by
      rw [lexChars_peeked_some s1 ⟨c, loc⟩ h3] at h2
      simp only [List.cons.injEq] at h2
      rw [lexChars_peeked_none _ rfl]
      exact h2.2
    obtain ⟨s', h5, h6⟩ := ih { s1 with peeked := none } rest h4 hd
    rw [hch]
    simp only
    rw [h5]
    exact ⟨s', rfl, h6⟩

/-! ### Locations -/

/-- The lexer location after consuming a list of bytes, starting from
`(1, 1)`. -/
def locAfter (bs : List Nat) : Location := bs.foldl advanceLoc ⟨1, 1⟩

lemma locAfter_append_single (bs : List Nat) (b : Nat) :
    locAfter (bs ++ [b]) = advanceLoc (locAfter bs) b := by
  simp [locAfter, List.foldl_append]

/-- The location after a byte list is one plus its newline count and one plus
the number of bytes since its last newline. -/
lemma locAfter_counts (bs : List Nat) :
    locAfter bs =
      ⟨1 + bs.count 10, 1 + (bs.reverse.takeWhile (fun b => b != 10)).length⟩ := by
  induction bs using List.reverseRecOn with
  | nil => rfl
  | append_singleton bs b ih =>
    rw [locAfter_append_single, ih]
    unfold advanceLoc
    by_cases hb : b = 10
    · subst hb
      simp only [if_pos rfl]
      simp [List.count_append, List.reverse_append, Location.mk.injEq]
      omega
    · rw [if_neg hb]
      simp [List.count_append, List.reverse_append, List.takeWhile_cons, hb,
        List.count_singleton, Location.mk.injEq]
      omega

lemma chopLoop_skip (skipped : List Nat) :
    ∀ (pre : List Nat) (c : Nat) (rest : List Nat),
      (∀ b ∈ skipped, is_char_in_language b = false) →
      is_char_in_language c = true →
      chopLoop (skipped ++ c :: rest) (locAfter pre) =
        (some ⟨c, locAfter (pre ++ skipped)⟩, rest, locAfter (pre ++ skipped ++ [c])) := by
  induction skipped with
  | nil =>
    intro pre c rest hskip hc
    simp only [List.nil_append, chopLoop]
    rw [if_pos hc, List.append_nil, ← locAfter_append_single]
  | cons b tl ih =>
    intro pre c rest hskip hc
    simp only [List.cons_append, chopLoop]
    rw [if_neg (by simp [hskip b (List.mem_cons_self b tl)])]
    rw [← locAfter_append_single]
    have h := ih (pre ++ [b]) c rest (fun x hx => hskip x (List.mem_cons_of_mem b hx)) hc
    simpa [List.append_assoc] using h

/-- **C6.** For every input byte stream and every token the lexer yields, the
token's reported location is `(1 + #newlines strictly before its first byte,
1 + #bytes since the last newline strictly before its first byte)`, both
one-based.  A state that has consumed the prefix `pre` carries location
`locAfter pre`; the next token's byte `c` follows the skipped non-alphabet
bytes `skipped`. -/
theorem C6_token_location (pre skipped rest : List Nat) (c : Nat)
    (hskip : ∀ b ∈ skipped, is_char_in_language b = false)
    (hc : is_char_in_language c = true) :
    chop ⟨skipped ++ c :: rest, locAfter pre, none⟩ =
      (some ⟨c, ⟨1 + (pre ++ skipped).count 10,
                 1 + ((pre ++ skipped).reverse.takeWhile (fun b => b != 10)).length⟩⟩,
       ⟨rest, locAfter (pre ++ skipped ++ [c]), none⟩) := by
  rw [chop_peeked_none _ rfl]
  have h := chopLoop_skip skipped pre c rest hskip hc
  rw [show (⟨skipped ++ c :: rest, locAfter pre, none⟩ : LexerState).source
      = skipped ++ c :: rest from rfl]
  rw [show (⟨skipped ++ c :: rest, locAfter pre, none⟩ : LexerState).location
      = locAfter pre from rfl]
  rw [h, ← locAfter_counts]

/-- Witness for C6: source `"a\nb +\+"` (bytes `97 10 98 32 43 43`); the first
`+` is reported at line 2, column 3. -/
theorem C6_token_location_witness :
    chop ⟨[32, 43, 43], locAfter [97, 10, 98], none⟩ =
      (some ⟨43, ⟨2, 3⟩⟩, ⟨[43], locAfter [97, 10, 98, 32, 43], none⟩) := by
  have h := C6_token_location [97, 10, 98] [32] [43] 43 (by decide) (by decide)
  exact h

/-- **C9.** `peek` is idempotent (a repeated peek returns the same token and
state), and a `chop` immediately after a peek that yielded a token returns
exactly that token while clearing the one-slot lookahead. -/
theorem C9_peek_idempotent (s : LexerState) (r : Option Token) (s1 : LexerState)
    (h : peek s = (r, s1)) :
    peek s1 = (r, s1) ∧
      ∀ tok, r = some tok → chop s1 = (some tok, { s1 with peeked := none }) := by
  rcases hchop : chop s with ⟨r0, s0⟩
  cases hpk : s.peeked with
  | some tk =>
    have hps : peek s = (some tk, s) := by unfold peek; rw [hpk]
    rw [hps] at h
    simp only [Prod.mk.injEq] at h
    obtain ⟨rfl, rfl⟩ := h
    refine ⟨hps, fun tok htok => ?_⟩
    injection htok with he
    subst he
    exact chop_peeked_some s tk hpk
  | none =>
    have hps : peek s = (r0, { s0 with peeked := r0 }) := by
      unfold peek
      rw [hpk]
      simp only [hchop]
    rw [hps] at h
    simp only [Prod.mk.injEq] at h
    obtain ⟨rfl, rfl⟩ := h
    cases r0 with
    | some tok =>
      have hp1 : ({ s0 with peeked := some tok } : LexerState).peeked = some tok := rfl
      refine ⟨?_, fun tok2 htok2 => ?_⟩
      · unfold peek
        rw [hp1]
      · injection htok2 with he
        subst he
        exact chop_peeked_some _ tok hp1
    | none =>
      have hs0p : s0.peeked = none := by
        have hcp := chop_clears_peek s
        rw [hchop] at hcp
        exact hcp
      have hs1 : ({ s0 with peeked := none } : LexerState) = s0 := by
        cases s0
        simp_all
      rw [hs1]
      have h2 := chop_peeked_none s hpk
      rw [hchop] at h2
      simp only [Prod.mk.injEq] at h2
      obtain ⟨h2a, h2b⟩ := h2
      have hrest : (chopLoop s.source s.location).2.1 = [] :=
        chopLoop_none_rest _ _ h2a.symm
      have hs0 : s0 = ⟨[], (chopLoop s.source s.location).2.2, none⟩ := by
        rw [h2b, hrest]
      refine ⟨?_, fun tok htok => by cases htok⟩
      rw [hs0]
      rfl

/-- Witness for C9 at a concrete peeked state: peeking `"+"` then peeking
again yields the same token, and the following chop returns it and clears the
slot. -/
theorem C9_peek_idempotent_witness :
    peek ⟨[], ⟨1, 2⟩, some ⟨43, ⟨1, 1⟩⟩⟩
        = (some ⟨43, ⟨1, 1⟩⟩, ⟨[], ⟨1, 2⟩, some ⟨43, ⟨1, 1⟩⟩⟩) ∧
      chop ⟨[], ⟨1, 2⟩, some ⟨43, ⟨1, 1⟩⟩⟩ = (some ⟨43, ⟨1, 1⟩⟩, ⟨[], ⟨1, 2⟩, none⟩) := by
  have h := C9_peek_idempotent ⟨[43], ⟨1, 1⟩, none⟩ (some ⟨43, ⟨1, 1⟩⟩)
    ⟨[], ⟨1, 2⟩, some ⟨43, ⟨1, 1⟩⟩⟩ rfl
  exact ⟨h.1, h.2 ⟨43, ⟨1, 1⟩⟩ rfl⟩

/-- **C8.** Whenever the parse loop consumes a `]` token while the
forward-jump stack is empty, parsing fails with an unmatched-closing-bracket
error reporting that token's line and column. -/
theorem C8_unmatched_closing (p : ParserState) (s s1 : LexerState) (t : Token)
    (hfj : p.forward_jumps = []) (hch : chop s = (some t, s1)) (hc : t.char = 93) :
    parseLoop p s = .error (.unmatchedClosing t.location.line t.location.column) := by
  rw [parseLoop_eq, hch]
  simp only
  unfold parse_instruction
  rw [hc]
  norm_num
  rw [hfj]

/-- Witness for C8: the source consisting solely of `]` fails with the
unmatched-closing-bracket error at `(1, 1)`. -/
theorem C8_unmatched_closing_witness :
    parse_program [93] = .error (.unmatchedClosing 1 1) := by
  have h := C8_unmatched_closing ⟨[], []⟩ ⟨[93], ⟨1, 1⟩, none⟩ ⟨[], ⟨1, 2⟩, none⟩
    ⟨93, ⟨1, 1⟩⟩ rfl rfl rfl
  exact h

/-- **C4** is a code bug: a source whose `[` has no matching `]` is *accepted*
by `parse_program` (the final emptiness check of the forward-jump stack is
missing from the code), yielding the placeholder program `[JmpForward 0]`
instead of the unmatched-opening-bracket error the specification requires. -/
theorem C4_unmatched_open_is_accepted :
    parse_program [91] = .ok [Instruction.JmpForward 0] := by decide

/-! ### C3: the coalescing law -/

/-- The single instruction the parser produces for a run of `m` copies of the
non-bracket operator byte `c` (counts are reduced modulo 255 for `+`/`-`). -/
def coalesced_instruction (c m : Nat) : Instruction :=
  if c = 60 then .AddrLeft m
  else if c = 62 then .AddrRight m
  else if c = 43 then .Inc (m % 255)
  else if c = 45 then .Dec (m % 255)
  else if c = 46 then .Output m
  else .Input m

/-- **C3.** A source whose in-alphabet bytes are exactly `m ≥ 1` copies of a
non-bracket operator `c` (arbitrary non-alphabet bytes interspersed) parses to
the single corresponding instruction, counted `m` (mod 255 for `+`/`-`). -/
theorem C3_coalescing (src : List Nat) (c m : Nat)
    (hc : c ∈ [60, 62, 43, 45, 46, 44]) (hm : 1 ≤ m)
    (hf : byteFilter src = List.replicate m c) :
    parse_program src = .ok [coalesced_instruction c m] := by
  obtain ⟨k, rfl⟩ : ∃ k, m = k + 1 := ⟨m - 1, by omega⟩
  have hlex0 : lexChars ⟨src, ⟨1, 1⟩, none⟩ = c :: List.replicate k c := by
    rw [lexChars_peeked_none _ rfl]
    show byteFilter src = c :: List.replicate k c
    rw [hf, List.replicate_succ]
  obtain ⟨loc, s1, hch, hlex1, -⟩ := chop_lexChars_cons _ c _ hlex0
  obtain ⟨s2, hcw, hlex2⟩ :=
    chop_while_run c k s1 [] (by simpa using hlex1) (by simp)
  obtain ⟨s3, hch3, -, -⟩ := chop_lexChars_nil s2 hlex2
  show parseLoop ⟨[], []⟩ ⟨src, ⟨1, 1⟩, none⟩ = _
  rw [parseLoop_eq, hch]
  simp only
  fin_cases hc <;>
    (unfold parse_instruction
     norm_num
     rw [hcw]
     simp only
     rw [parseLoop_eq, hch3]
     simp [coalesced_instruction, Nat.add_comm])

lemma byteFilter_replicate_lang (n c : Nat) (h : is_char_in_language c = true) :
    byteFilter (List.replicate n c) = List.replicate n c := by
  induction n with
  | zero => rfl
  | succ n ih =>
    rw [List.replicate_succ]
    show List.filter _ (c :: List.replicate n c) = _
    rw [List.filter_cons_of_pos (by exact h)]
    rw [show List.filter (fun b => is_char_in_language b) (List.replicate n c)
        = byteFilter (List.replicate n c) from rfl, ih]

set_option maxRecDepth 4000 in
/-- Witness for C3: 256 consecutive `+` parse to the single instruction
`Inc 1` (256 mod 255). -/
theorem C3_coalescing_witness :
    parse_program (List.replicate 256 43) = .ok [Instruction.Inc 1] := by
  have hf : byteFilter (List.replicate 256 43) = List.replicate 256 43 :=
    byteFilter_replicate_lang 256 43 rfl
  have h := C3_coalescing (List.replicate 256 43) 43 256 (by decide) (by decide) hf
  rw [show coalesced_instruction 43 256 = .Inc 1 by norm_num [coalesced_instruction]] at h
  exact h

/-! ### The parser's bracket bookkeeping invariant (for C2 and C10) -/

/-- Is this instruction a `JmpForward`? -/
def isJF : Instruction → Bool
  | .JmpForward _ => true
  | _ => false

/-- Is this instruction a `JmpBack`? -/
def isJB : Instruction → Bool
  | .JmpBack _ => true
  | _ => false

lemma get?_some_lt {α : Type} {l : List α} {n : Nat} {a : α}
    (h : l.get? n = some a) : n < l.length := by
  obtain ⟨hlt, -⟩ := List.get?_eq_some.mp h
  exact hlt

lemma get?_append_one {α : Type} {l : List α} (x : α) {n : Nat} {a : α}
    (h : l.get? n = some a) : (l ++ [x]).get? n = some a := by
  rw [List.get?_append (get?_some_lt h)]
  exact h

lemma get?_concat_cases {α : Type} (l : List α) (x y : α) (n : Nat)
    (h : (l ++ [x]).get? n = some y) :
    l.get? n = some y ∨ (n = l.length ∧ y = x) := by
  by_cases hn : n < l.length
  · left
    rw [List.get?_append hn] at h
    exact h
  · right
    by_cases he : n = l.length
    · subst he
      rw [List.get?_concat_length] at h
      injection h with h
      exact ⟨rfl, h.symm⟩
    · exfalso
      have hnone : (l ++ [x]).get? n = none := List.get?_eq_none.mpr (by simp; omega)
      rw [hnone] at h
      cases h

lemma countP_take_set (p : Instruction → Bool) :
    ∀ (l : List Instruction) (n : Nat) (a b : Instruction), l.get? n = some b → p a = p b →
      ∀ k, ((l.set n a).take k).countP p = (l.take k).countP p := by
  intro l
  induction l with
  | nil => intro n a b h _ _; simp at h
  | cons x xs ih =>
    intro n a b h hpe k
    cases n with
    | zero =>
      simp only [List.get?] at h
      injection h with hxb
      subst hxb
      cases k with
      | zero => simp
      | succ k =>
        show List.countP p (a :: List.take k xs) = List.countP p (x :: List.take k xs)
        rw [List.countP_cons, List.countP_cons, hpe]
    | succ n =>
      cases k with
      | zero => simp
      | succ k =>
        show List.countP p (x :: List.take k (xs.set n a))
            = List.countP p (x :: List.take k xs)
        rw [List.countP_cons, List.countP_cons, ih n a b (by simpa using h) hpe k]

lemma countP_set_eq (p : Instruction → Bool) (l : List Instruction) (n : Nat)
    (a b : Instruction) (h : l.get? n = some b) (hpe : p a = p b) :
    (l.set n a).countP p = l.countP p := by
  have hk := countP_take_set p l n a b h hpe l.length
  rwa [show List.take l.length (l.set n a) = l.set n a by
      rw [← List.length_set l n a]; exact List.take_length _,
    List.take_length] at hk

lemma prefixes_concat (prog : List Instruction) (inst : Instruction)
    (hpre : ∀ k, (prog.take k).countP isJB ≤ (prog.take k).countP isJF)
    (hfull : prog.countP isJB + List.countP isJB [inst]
      ≤ prog.countP isJF + List.countP isJF [inst]) :
    ∀ k, ((prog ++ [inst]).take k).countP isJB ≤ ((prog ++ [inst]).take k).countP isJF := by
  intro k
  by_cases hk : k ≤ prog.length
  · rw [List.take_append_eq_append_take, Nat.sub_eq_zero_of_le hk]
    simp only [List.take_zero, List.append_nil]
    exact hpre k
  · rw [List.take_all_of_le (by simp; omega), List.countP_append, List.countP_append]
    exact hfull

/-- The invariant the parser maintains between tokens: the forward-jump stack
holds strictly decreasing indices of `JmpForward 0` placeholders, jump counts
balance, every program prefix has at least as many `JmpForward`s as
`JmpBack`s, and already-matched pairs point one past each other. -/
structure ParserInv (fj : List Nat) (prog : List Instruction) : Prop where
  sorted : fj.Pairwise (· > ·)
  slots : ∀ j ∈ fj, prog.get? j = some (.JmpForward 0)
  balance : fj.length + prog.countP isJB = prog.countP isJF
  prefixes : ∀ k, (prog.take k).countP isJB ≤ (prog.take k).countP isJF
  closers : ∀ b s, prog.get? b = some (.JmpBack s) →
    1 ≤ s ∧ prog.get? (s - 1) = some (.JmpForward (b + 1))
  openers : ∀ i t, prog.get? i = some (.JmpForward t) →
    (t = 0 ∧ i ∈ fj) ∨ (1 ≤ t ∧ prog.get? (t - 1) = some (.JmpBack (i + 1)))

lemma ParserInv.append_plain (fj : List Nat) (prog : List Instruction)
    (inst : Instruction) (hJF : isJF inst = false) (hJB : isJB inst = false)
    (h : ParserInv fj prog) : ParserInv fj (prog ++ [inst]) where
  sorted := h.sorted
  slots := fun j hj => get?_append_one inst (h.slots j hj)
  balance := by
    rw [List.countP_append, List.countP_append]
    have hb : List.countP isJB [inst] = 0 := by simp [List.countP_cons, hJB]
    have hf : List.countP isJF [inst] = 0 := by simp [List.countP_cons, hJF]
    rw [hb, hf]
    simpa using h.balance
  prefixes := by
    apply prefixes_concat prog inst h.prefixes
    have hb : List.countP isJB [inst] = 0 := by simp [List.countP_cons, hJB]
    have hf : List.countP isJF [inst] = 0 := by simp [List.countP_cons, hJF]
    rw [hb, hf]
    have := h.balance
    omega
  closers := by
    intro b s hb
    rcases get?_concat_cases prog inst _ b hb with hold | ⟨-, heq⟩
    · obtain ⟨h1, h2⟩ := h.closers b s hold
      exact ⟨h1, get?_append_one inst h2⟩
    · rw [← heq] at hJB
      simp [isJB] at hJB
  openers := by
    intro i t hi
    rcases get?_concat_cases prog inst _ i hi with hold | ⟨-, heq⟩
    · rcases h.openers i t hold with ⟨h1, h2⟩ | ⟨h1, h2⟩
      · exact Or.inl ⟨h1, h2⟩
      · exact Or.inr ⟨h1, get?_append_one inst h2⟩
    · rw [← heq] at hJF
      simp [isJF] at hJF

lemma ParserInv.append_opener (fj : List Nat) (prog : List Instruction)
    (h : ParserInv fj prog) :
    ParserInv (prog.length :: fj) (prog ++ [.JmpForward 0]) where
  sorted := by
    rw [List.pairwise_cons]
    exact ⟨fun j hj => get?_some_lt (h.slots j hj), h.sorted⟩
  slots := by
    intro j hj
    rcases List.mem_cons.mp hj with rfl | hj
    · exact List.get?_concat_length prog _
    · exact get?_append_one _ (h.slots j hj)
  balance := by
    rw [List.countP_append, List.countP_append]
    have hb : List.countP isJB [Instruction.JmpForward 0] = 0 := by
      simp [List.countP_cons, isJB]
    have hf : List.countP isJF [Instruction.JmpForward 0] = 1 := by
      simp [List.countP_cons, isJF]
    rw [hb, hf]
    have := h.balance
    simp only [List.length_cons]
    omega
  prefixes := by
    apply prefixes_concat prog _ h.prefixes
    have hb : List.countP isJB [Instruction.JmpForward 0] = 0 := by
      simp [List.countP_cons, isJB]
    have := h.balance
    omega
  closers := by
    intro b s hb
    rcases get?_concat_cases prog _ _ b hb with hold | ⟨-, heq⟩
    · obtain ⟨h1, h2⟩ := h.closers b s hold
      exact ⟨h1, get?_append_one _ h2⟩
    · cases heq
  openers := by
    intro i t hi
    rcases get?_concat_cases prog _ _ i hi with hold | ⟨hlen, heq⟩
    · rcases h.openers i t hold with ⟨h1, h2⟩ | ⟨h1, h2⟩
      · exact Or.inl ⟨h1, List.mem_cons_of_mem _ h2⟩
      · exact Or.inr ⟨h1, get?_append_one _ h2⟩
    · injection heq with ht
      subst hlen
      exact Or.inl ⟨ht.symm ▸ rfl, List.mem_cons_self _ _⟩

lemma ParserInv.append_closer (target : Nat) (rest : List Nat)
    (prog : List Instruction) (h : ParserInv (target :: rest) prog) :
    ParserInv rest
      ((prog.set target (.JmpForward (prog.length + 1))) ++
        [.JmpBack (target + 1)]) := by
  have htslot : prog.get? target = some (.JmpForward 0) :=
    h.slots target (List.mem_cons_self _ _)
  have htlt : target < prog.length := get?_some_lt htslot
  have hgt : ∀ j ∈ rest, target > j := (List.pairwise_cons.mp h.sorted).1
  set P := prog.set target (.JmpForward (prog.length + 1)) with hP
  have hPlen : P.length = prog.length := List.length_set prog target _
  have hPt : P.get? target = some (.JmpForward (prog.length + 1)) := by
    rw [hP, List.get?_set_eq, htslot]
    rfl
  have hPother : ∀ j, j ≠ target → P.get? j = prog.get? j := by
    intro j hj
    rw [hP, List.get?_set_ne _ _ (fun he => hj he.symm)]
  have hPcJB : P.countP isJB = prog.countP isJB :=
    countP_set_eq isJB prog target _ _ htslot rfl
  have hPcJF : P.countP isJF = prog.countP isJF :=
    countP_set_eq isJF prog target _ _ htslot rfl
  have hPend : (P ++ [Instruction.JmpBack (target + 1)]).get? prog.length
      = some (.JmpBack (target + 1)) := by
    rw [← hPlen]
    exact List.get?_concat_length P _
  refine ⟨?_, ?_, ?_, ?_, ?_, ?_⟩
  · exact (List.pairwise_cons.mp h.sorted).2
  · intro j hj
    have hne : j ≠ target := fun he => by
      have := hgt j hj
      omega
    apply get?_append_one
    rw [hPother j hne]
    exact h.slots j (List.mem_cons_of_mem _ hj)
  · rw [List.countP_append, List.countP_append, hPcJB, hPcJF]
    have hb : List.countP isJB [Instruction.JmpBack (target + 1)] = 1 := by
      simp [List.countP_cons, isJB]
    have hf : List.countP isJF [Instruction.JmpBack (target + 1)] = 0 := by
      simp [List.countP_cons, isJF]
    rw [hb, hf]
    have := h.balance
    simp only [List.length_cons] at this
    omega
  · apply prefixes_concat
    · intro k
      rw [countP_take_set isJB prog target (.JmpForward (prog.length + 1))
          (.JmpForward 0) htslot rfl,
        countP_take_set isJF prog target (.JmpForward (prog.length + 1))
          (.JmpForward 0) htslot rfl]
      exact h.prefixes k
    · rw [hPcJB, hPcJF]
      have hb : List.countP isJB [Instruction.JmpBack (target + 1)] = 1 := by
        simp [List.countP_cons, isJB]
      have hf : List.countP isJF [Instruction.JmpBack (target + 1)] = 0 := by
        simp [List.countP_cons, isJF]
      rw [hb, hf]
      have := h.balance
      simp only [List.length_cons] at this
      omega
  · intro b s hb
    rcases get?_concat_cases P _ _ b hb with hold | ⟨hlen, heq⟩
    · have hbne : b ≠ target := by
        intro he
        rw [he, hPt] at hold
        cases hold
      rw [hPother b hbne] at hold
      obtain ⟨h1, h2⟩ := h.closers b s hold
      refine ⟨h1, ?_⟩
      have hne : s - 1 ≠ target := by
        intro he
        rw [he, htslot] at h2
        injection h2 with h2
        injection h2 with h2
        omega
      apply get?_append_one
      rw [hPother _ hne]
      exact h2
    · injection heq with he
      subst hlen
      constructor
      · omega
      · rw [show s - 1 = target by omega]
        apply get?_append_one
        rw [hPt, hPlen]
  · intro i t hi
    rcases get?_concat_cases P _ _ i hi with hold | ⟨hlen, heq⟩
    · by_cases hie : i = target
      · subst hie
        rw [hPt] at hold
        injection hold with he
        injection he with he
        refine Or.inr ⟨by omega, ?_⟩
        rw [← he]
        simpa using hPend
      · rw [hPother i hie] at hold
        rcases h.openers i t hold with ⟨h1, h2⟩ | ⟨h1, h2⟩
        · rcases List.mem_cons.mp h2 with rfl | h2
          · exact absurd rfl hie
          · exact Or.inl ⟨h1, h2⟩
        · refine Or.inr ⟨h1, ?_⟩
          have hne : t - 1 ≠ target := by
            intro he
            rw [he, htslot] at h2
            injection h2 with h2
            injection h2
          apply get?_append_one
          rw [hPother _ hne]
          exact h2
    · injection heq

lemma parse_instruction_inv (p : ParserState) (lx : LexerState) (t : Token)
    (inst : Instruction) (p2 : ParserState) (s2 : LexerState)
    (hpi : parse_instruction p lx t = .ok (inst, p2, s2))
    (hinv : ParserInv p.forward_jumps p.program) :
    ParserInv p2.forward_jumps (p2.program ++ [inst]) := by
  unfold parse_instruction at hpi
  split_ifs at hpi <;>
    try (simp only [Except.ok.injEq, Prod.mk.injEq] at hpi
         obtain ⟨rfl, rfl, -⟩ := hpi)
  all_goals first
    | exact ParserInv.append_plain _ _ _ rfl rfl hinv
    | exact ParserInv.append_opener _ _ hinv
    | (rcases hfj : p.forward_jumps with - | ⟨target, rest⟩ <;> rw [hfj] at hpi
       · simp at hpi
       · simp only [Except.ok.injEq, Prod.mk.injEq] at hpi
         obtain ⟨rfl, rfl, -⟩ := hpi
         rw [hfj] at hinv
         exact ParserInv.append_closer target rest p.program hinv)
    | simp at hpi

lemma parseLoop_inv :
    ∀ (n : Nat) (p : ParserState) (s : LexerState), lexMeasure s < n →
      ParserInv p.forward_jumps p.program →
      ∀ prog, parseLoop p s = .ok prog → ∃ fj, ParserInv fj prog := by
  intro n
  induction n with
  | zero => intro p s hm; omega
  | succ n ih =>
    intro p s hm hinv prog hloop
    rw [parseLoop_eq] at hloop
    rcases hch : chop s with ⟨r, s1⟩
    rw [hch] at hloop
    cases r with
    | none =>
      simp only [Except.ok.injEq] at hloop
      subst hloop
      exact ⟨p.forward_jumps, hinv⟩
    | some t =>
      simp only at hloop
      rcases hpi : parse_instruction p s1 t with e | ⟨inst, p2, s2⟩ <;> rw [hpi] at hloop
      · cases hloop
      · have hm1 := chop_some_measure s t s1 hch
        have hm2 := parse_instruction_measure p s1 t inst p2 s2 hpi
        have hinv2 := parse_instruction_inv p s1 t inst p2 s2 hpi hinv
        exact ih { p2 with program := p2.program ++ [inst] } s2 (by omega) hinv2 prog hloop

/-- Every successfully parsed program satisfies the parser invariant for some
leftover forward-jump stack. -/
lemma parse_program_inv (src : List Nat) (prog : List Instruction)
    (h : parse_program src = .ok prog) : ∃ fj, ParserInv fj prog := by
  have hinit : ParserInv ([] : List Nat) ([] : List Instruction) :=
    ⟨List.Pairwise.nil, by simp, rfl, by simp, by simp, by simp⟩
  exact parseLoop_inv (lexMeasure ⟨src, ⟨1, 1⟩, none⟩ + 1) ⟨[], []⟩ _ (by omega)
    hinit prog h

/-- **C2 (amended).** For every source whose parse succeeds, every
`JmpForward` with *nonzero* target `t` has a `JmpBack` with target `i + 1` at
index `t − 1`, and conversely every `JmpBack` at `b` with target `s` has a
`JmpForward` with target `b + 1` at index `s − 1`.  (Unmatched `[` leave
`JmpForward 0` placeholders, for which the forward direction fails; see the
counterexample.) -/
theorem C2_bracket_invariant (src : List Nat) (prog : List Instruction)
    (h : parse_program src = .ok prog) :
    (∀ i t, prog.get? i = some (.JmpForward t) → t ≠ 0 →
      1 ≤ t ∧ prog.get? (t - 1) = some (.JmpBack (i + 1))) ∧
    (∀ b s, prog.get? b = some (.JmpBack s) →
      1 ≤ s ∧ prog.get? (s - 1) = some (.JmpForward (b + 1))) := by
  obtain ⟨fj, hinv⟩ := parse_program_inv src prog h
  constructor
  · intro i t hi ht
    rcases hinv.openers i t hi with ⟨h0, -⟩ | ⟨h1, h2⟩
    · exact absurd h0 ht
    · exact ⟨h1, h2⟩
  · exact hinv.closers

/-- Counterexample to C2 as stated: the source `"["` parses successfully, its
program contains a `JmpForward` (at index 0, with target 0), yet the program
contains no `JmpBack` at all — so no instruction at `t − 1` is a `JmpBack`
with target `i + 1`. -/
theorem C2_bracket_invariant_counterexample :
    parse_program [91] = .ok [.JmpForward 0] ∧
      [Instruction.JmpForward 0].get? 0 = some (.JmpForward 0) ∧
      ∀ j s, ¬ ([Instruction.JmpForward 0].get? j = some (.JmpBack s)) := by
  refine ⟨by decide, rfl, ?_⟩
  intro j s hj
  cases j with
  | zero => simp at hj
  | succ n => simp at hj

/-- Witness for C2 (amended) on `"[]"`: the closer matching the opener at
index 0 sits at index `2 − 1 = 1` and targets instruction 1. -/
theorem C2_bracket_invariant_witness :
    [Instruction.JmpForward 2, Instruction.JmpBack 1].get? 1
      = some (Instruction.JmpBack 1) :=
  ((C2_bracket_invariant [91, 93] [.JmpForward 2, .JmpBack 1] (by decide)).1
    0 2 (by decide) (by decide)).2

/-! ### The x86-64 assembler and JIT compiler -/

/-- `enum Operand` (the `Memory` case exists in the source but is unused). -/
inductive Operand where
  | Register (r : Nat)
  | Immediate (v : Nat)
  | Immediate8 (v : Nat)
  | Memory (v : Nat)
  | MemoryByRegister (r : Nat)
  | MemoryByRegisterAndOffset (r o : Nat)

/-- Register encodings used by the compiler. -/
def RAX : Nat := 0x00

/-- `RDI = 0x07`. -/
def RDI : Nat := 0x07

/-- `RSI = 0x06`. -/
def RSI : Nat := 0x06

/-- `RDX = 0x02`. -/
def RDX : Nat := 0x02

/-- `X86Assembler::emit`: append bytes to the code buffer (`position()` is
the buffer length). -/
def emit (code bytes : List Nat) : List Nat := code ++ bytes

/-- `X86Assembler::emit_movzx`; unsupported operand pairs hit `todo!`. -/
def emit_movzx (code : List Nat) : Operand → Operand → Option (List Nat)
  | .Register dst_reg, .MemoryByRegisterAndOffset src_reg offset_reg =>
    some (emit code [0x0F, 0xB6, 0x04, 0x00 ||| (dst_reg <<< 3) ||| src_reg ||| offset_reg])
  | _, _ => none

/-- `X86Assembler::emit_mov`. -/
def emit_mov (code : List Nat) : Operand → Operand → Option (List Nat)
  | .Register dst_reg, .MemoryByRegister src_reg =>
    some (emit code [0x48, 0x8B, 0x00 ||| (dst_reg <<< 3) ||| src_reg])
  | .Register dst, .Immediate src =>
    some (emit code [0x48, 0xC7, 0xC0 ||| dst, src &&& 0xFF, (src >>> 8) &&& 0xFF,
      (src >>> 16) &&& 0xFF, (src >>> 24) &&& 0xFF])
  | .MemoryByRegister dst, .Register src =>
    some (emit code [0x48, 0x89, 0x00 ||| (src <<< 3) ||| dst])
  | .Register dst_reg, .MemoryByRegisterAndOffset src_reg offset_reg =>
    some (emit code [0x48, 0x8B, 0x04 ||| (dst_reg <<< 3),
      0x00 ||| (offset_reg <<< 3) ||| src_reg])
  | .Register dst, .Register src =>
    some (emit code [0x48, 0x89, 0xC0 ||| (src <<< 3) ||| dst])
  | _, _ => none

/-- `X86Assembler::emit_add`. -/
def emit_add (code : List Nat) : Operand → Operand → Option (List Nat)
  | .Register dst, .Immediate8 value =>
    some (emit code [0x48, 0x83, 0xC0 ||| dst, value])
  | .Register dst, .Immediate value =>
    some (emit code [0x48, 0x81, 0xC0 ||| dst, value &&& 0xFF, (value >>> 8) &&& 0xFF,
      (value >>> 16) &&& 0xFF, (value >>> 24) &&& 0xFF])
  | .MemoryByRegisterAndOffset dst_reg offset_reg, .Immediate8 value =>
    some (emit code [0x80, 0x04, 0x00 ||| (dst_reg <<< 3) ||| offset_reg, value])
  | .Register dst, .Register src =>
    some (emit code [0x48, 0x01, 0xC0 ||| (src <<< 3) ||| dst])
  | _, _ => none

/-- `X86Assembler::emit_sub`. -/
def emit_sub (code : List Nat) : Operand → Operand → Option (List Nat)
  | .Register dst, .Immediate8 value =>
    some (emit code [0x48, 0x83, 0xE8 ||| dst, value])
  | .Register dst, .Immediate value =>
    some (emit code [0x48, 0x81, 0xE8 ||| dst, value &&& 0xFF, (value >>> 8) &&& 0xFF,
      (value >>> 16) &&& 0xFF, (value >>> 24) &&& 0xFF])
  | .MemoryByRegisterAndOffset dst_reg offset_reg, .Immediate8 value =>
    some (emit code [0x80, 0x2C, 0x00 ||| (dst_reg <<< 3) ||| offset_reg, value])
  | _, _ => none

/-- `X86Assembler::emit_push`. -/
def emit_push (code : List Nat) : Operand → Option (List Nat)
  | .Register src => some (emit code [0x50 ||| src])
  | _ => none

/-- `X86Assembler::emit_pop`. -/
def emit_pop (code : List Nat) : Operand → Option (List Nat)
  | .Register dst => some (emit code [0x58 ||| dst])
  | _ => none

/-- `X86Assembler::emit_compare`. -/
def emit_compare (code : List Nat) : Operand → Operand → Option (List Nat)
  | .Register dst, .Immediate8 value =>
    some (emit code [0x48, 0x83, 0xF8 ||| dst, value])
  | _, _ => none

/-- A 32-bit two's-complement little-endian encoding of an integer
(`i32::to_le_bytes`). -/
def int32_le (v : Int) : List Nat :=
  let u : Nat := (v % (2 ^ 32 : Int)).toNat
  [u % 2 ^ 8, (u / 2 ^ 8) % 2 ^ 8, (u / 2 ^ 16) % 2 ^ 8, (u / 2 ^ 24) % 2 ^ 8]

/-- `X86Assembler::emit_jump_if_zero`: `je rel32`, displacement relative to
the end of the 6-byte instruction. -/
def emit_jump_if_zero (code : List Nat) (target : Nat) : List Nat :=
  let src_pos : Int := ((code.length + 6 : Nat) : Int)
  let relative_target : Int := (target : Int) - src_pos
  emit (emit code [0x0F, 0x84]) (int32_le relative_target)

/-- `X86Assembler::emit_jump_if_non_zero`: `jne rel32`. -/
def emit_jump_if_non_zero (code : List Nat) (target : Nat) : List Nat :=
  let src_pos : Int := ((code.length + 6 : Nat) : Int)
  let relative_target : Int := (target : Int) - src_pos
  emit (emit code [0x0F, 0x85]) (int32_le relative_target)

/-- `X86Assembler::patch_jump_target`: write `new_target − patch_target_pos`
as a little-endian `i32` into the bytes `[patch_target_pos − 4,
patch_target_pos)`.  The Rust slice write panics when that range is out of
bounds; this is modelled by the `none` branch. -/
def patch_jump_target (code : List Nat) (patch_target_pos new_target : Nat) :
    Option (List Nat) :=
  if 4 ≤ patch_target_pos ∧ patch_target_pos ≤ code.length then
    some (code.take (patch_target_pos - 4) ++
      int32_le ((new_target : Int) - (patch_target_pos : Int)) ++
      code.drop patch_target_pos)
  else none

/-- `X86Assembler::emit_syscall`. -/
def emit_syscall (code : List Nat) : List Nat := emit code [0x0F, 0x05]

/-- `X86Assembler::emit_return`. -/
def emit_return (code : List Nat) : List Nat := emit code [0xC3]

/-- Failures of `JitCompiler::compile`, including the panics of the source
(`todo!` on `Input`, `todo!("not implemented")` in the emitters, the
`.expect` on an empty patch stack, and the slice-bounds panic in
`patch_jump_target`). -/
inductive JitError where
  | todoInput
  | todoUnsupported
  | expectedForwardJumpTarget
  | patchOutOfBounds
deriving DecidableEq, Repr

/-- Lift an emitter result; `none` models the emitter `todo!` panic. -/
def ofOption (o : Option (List Nat)) : Except JitError (List Nat) :=
  match o with
  | some c => .ok c
  | none => .error .todoUnsupported

/-- One iteration of the `Output` loop body in `JitCompiler::compile`. -/
def output_once (code : List Nat) : Option (List Nat) := do
  let c1 ← emit_push code (.Register RDI)
  let c2 ← emit_push c1 (.Register RSI)
  let c3 ← emit_mov c2 (.Register RAX) (.MemoryByRegister RSI)
  let c4 ← emit_add c3 (.Register RAX) (.Register RDI)
  let c5 ← emit_mov c4 (.Register RSI) (.Register RAX)
  let c6 ← emit_mov c5 (.Register RAX) (.Immediate 1)
  let c7 ← emit_mov c6 (.Register RDI) (.Immediate 1)
  let c8 ← emit_mov c7 (.Register RDX) (.Immediate 1)
  let c9 := emit_syscall c8
  let c10 ← emit_pop c9 (.Register RSI)
  emit_pop c10 (.Register RDI)

/-- The `for _ in 0..value` loop of the `Output` translation. -/
def output_rep : Nat → List Nat → Option (List Nat)
  | 0, code => some code
  | n + 1, code => do
    let c ← output_once code
    output_rep n c

/-- The body of the `for i in 0..self.program.len()` loop of
`JitCompiler::compile`, for one instruction: takes and returns the code-time
patch stack (`forward_jumps`) and the code buffer. -/
def compileStep (ins : Instruction) (forward_jumps : List Nat) (code : List Nat) :
    Except JitError (List Nat × List Nat) :=
  match ins with
  | .AddrRight value => do
    let c1 ← ofOption (emit_mov code (.Register RAX) (.MemoryByRegister RSI))
    let c2 ← ofOption (emit_add c1 (.Register RAX) (.Immediate value))
    let c3 ← ofOption (emit_mov c2 (.MemoryByRegister RSI) (.Register RAX))
    .ok (forward_jumps, c3)
  | .AddrLeft value => do
    let c1 ← ofOption (emit_mov code (.Register RAX) (.MemoryByRegister RSI))
    let c2 ← ofOption (emit_sub c1 (.Register RAX) (.Immediate value))
    let c3 ← ofOption (emit_mov c2 (.MemoryByRegister RSI) (.Register RAX))
    .ok (forward_jumps, c3)
  | .Inc value => do
    let c1 ← ofOption (emit_mov code (.Register RAX) (.MemoryByRegister RSI))
    let c2 ← ofOption (emit_add c1 (.MemoryByRegisterAndOffset RDI RAX) (.Immediate8 value))
    .ok (forward_jumps, c2)
  | .Dec value => do
    let c1 ← ofOption (emit_mov code (.Register RAX) (.MemoryByRegister RSI))
    let c2 ← ofOption (emit_sub c1 (.MemoryByRegisterAndOffset RDI RAX) (.Immediate8 value))
    .ok (forward_jumps, c2)
  | .Output value => do
    let c ← ofOption (output_rep value code)
    .ok (forward_jumps, c)
  | .Input _ => .error .todoInput
  | .JmpForward _ => do
    let c1 ← ofOption (emit_mov code (.Register RAX) (.MemoryByRegister RSI))
    let c2 ← ofOption (emit_movzx c1 (.Register RAX) (.MemoryByRegisterAndOffset RDI RAX))
    let c3 ← ofOption (emit_compare c2 (.Register RAX) (.Immediate8 0))
    let c4 := emit_jump_if_zero c3 0x00c0ffee
    .ok (c4.length :: forward_jumps, c4)
  | .JmpBack _ => do
    let c1 ← ofOption (emit_mov code (.Register RAX) (.MemoryByRegister RSI))
    let c2 ← ofOption (emit_movzx c1 (.Register RAX) (.MemoryByRegisterAndOffset RDI RAX))
    let c3 ← ofOption (emit_compare c2 (.Register RAX) (.Immediate8 0))
    match forward_jumps with
    | [] => .error .expectedForwardJumpTarget
    | target :: rest =>
      let c4 := emit_jump_if_non_zero c3 target
      match patch_jump_target c4 target c4.length with
      | some c5 => .ok (rest, c5)
      | none => .error .patchOutOfBounds

/-- The instruction loop of `JitCompiler::compile`. -/
def compileLoop : List Instruction → List Nat → List Nat → Except JitError (List Nat)
  | [], _, code => .ok code
  | ins :: rest, fj, code =>
    match compileStep ins fj code with
    | .error e => .error e
    | .ok r => compileLoop rest r.1 r.2

/-- `JitCompiler::compile`: clear the buffer, translate every instruction
(threading the patch stack), then append `ret`. -/
def compile (prog : List Instruction) : Except JitError (List Nat) :=
  match compileLoop prog [] [] with
  | .ok c => .ok (emit_return c)
  | .error e => .error e

/-- Decode four little-endian bytes as a signed 32-bit integer. -/
def decodeI32 (bytes : List Nat) : Int :=
  let u : Nat := bytes.foldr (fun b acc => b + 2 ^ 8 * acc) 0
  if u < 2 ^ 31 then (u : Int) else (u : Int) - 2 ^ 32

/-- The absolute branch target of a `rel32` jump whose final byte ends at
code offset `endPos`: `endPos` plus the decoded displacement stored in the
four bytes `[endPos − 4, endPos)`. -/
def jump_target_at (code : List Nat) (endPos : Nat) : Int :=
  (endPos : Int) + decodeI32 ((code.drop (endPos - 4)).take 4)

lemma int32_le_length (v : Int) : (int32_le v).length = 4 := rfl

/-- **C7.** For `4 ≤ p ≤ code.length`, the patch helper succeeds and
overwrites exactly the four bytes at `[p − 4, p)` with `t − p` encoded as a
little-endian 32-bit signed integer, leaving every other byte unchanged. -/
theorem C7_patch_jump_target (code : List Nat) (p t : Nat)
    (h4 : 4 ≤ p) (hlen : p ≤ code.length) :
    ∃ code', patch_jump_target code p t = some code' ∧
      code'.length = code.length ∧
      (∀ j, j < 4 → code'.get? (p - 4 + j) = (int32_le ((t : Int) - (p : Int))).get? j) ∧
      (∀ j, j < p - 4 → code'.get? j = code.get? j) ∧
      (∀ j, p ≤ j → code'.get? j = code.get? j) := by
  have htl : (code.take (p - 4)).length = p - 4 := by
    simp only [List.length_take]
    omega
  refine ⟨code.take (p - 4) ++ int32_le ((t : Int) - (p : Int)) ++ code.drop p,
    ?_, ?_, ?_, ?_, ?_⟩
  · unfold patch_jump_target
    rw [if_pos ⟨h4, hlen⟩]
  · simp only [List.length_append, List.length_take, int32_le_length,
      List.length_drop]
    omega
  · intro j hj
    rw [List.append_assoc, List.get?_append_right (by rw [htl]; omega), htl,
      show p - 4 + j - (p - 4) = j by omega,
      List.get?_append (by rw [int32_le_length]; omega)]
  · intro j hj
    rw [List.append_assoc, List.get?_append (by rw [htl]; omega),
      List.get?_take hj]
  · intro j hj
    have hl2 : (code.take (p - 4) ++ int32_le ((t : Int) - (p : Int))).length = p := by
      simp only [List.length_append, List.length_take, int32_le_length]
      omega
    rw [List.get?_append_right (by rw [hl2]; omega), hl2, List.get?_drop,
      show p + (j - p) = j by omega]

/-- Witness for C7 at `p = 6`, `t = 100` on an 8-byte buffer. -/
theorem C7_patch_jump_target_witness :
    ∃ code', patch_jump_target [10, 11, 12, 13, 14, 15, 16, 17] 6 100 = some code' ∧
      code'.length = 8 ∧
      (∀ j, j < 4 → code'.get? (6 - 4 + j) = (int32_le ((100 : Int) - 6)).get? j) ∧
      (∀ j, j < 6 - 4 → code'.get? j = [10, 11, 12, 13, 14, 15, 16, 17].get? j) ∧
      (∀ j, 6 ≤ j → code'.get? j = [10, 11, 12, 13, 14, 15, 16, 17].get? j) :=
  C7_patch_jump_target [10, 11, 12, 13, 14, 15, 16, 17] 6 100 (by decide) (by decide)

lemma decodeI32_int32_le (v : Int) (hlo : -(2 ^ 31) ≤ v) (hhi : v < 2 ^ 31) :
    decodeI32 (int32_le v) = v := by
  unfold decodeI32 int32_le
  simp only [List.foldr_cons, List.foldr_nil]
  split_ifs with h <;> (push_cast; omega)

/-- **C1 (amended).** Translating a `JmpBack` with patch-stack top `p` emits
the 11-byte load/movzx/cmp prologue followed by a `jne rel32` whose branch
target is `p` itself — the saved patch offset, i.e. the code offset one past
the matching opener's `je` (the start of the loop body), *not* the code
offset of the opener's first emitted byte — and then patches the opener's
`je` displacement at `[p − 4, p)` to point to the code offset one past the
`jne`. -/
theorem C1_jmpback_translation (n p : Nat) (fj code : List Nat)
    (h4 : 4 ≤ p) (hple : p ≤ code.length) (hbound : code.length + 17 < 2 ^ 31) :
    ∃ code', compileStep (.JmpBack n) (p :: fj) code = .ok (fj, code') ∧
      code'.length = code.length + 17 ∧
      (code'.drop (code.length + 11)).take 2 = [0x0F, 0x85] ∧
      jump_target_at code' (code.length + 17) = (p : Int) ∧
      (code'.drop (p - 4)).take 4 = int32_le ((code.length + 17 : Int) - (p : Int)) ∧
      (p : Int) + decodeI32 ((code'.drop (p - 4)).take 4) = (code.length + 17 : Int) := by
  set L := code.length with hL
  set c3 : List Nat := ((code ++ [0x48, 0x8B, 0x06]) ++ [0x0F, 0xB6, 0x04, 0x07]) ++
    [0x48, 0x83, 0xF8, 0x00] with hc3
  have hc3len : c3.length = L + 11 := by simp [hc3, hL]
  set rel : Int := (p : Int) - ((c3.length + 6 : Nat) : Int) with hrel
  set c4 : List Nat := (c3 ++ [0x0F, 0x85]) ++ int32_le rel with hc4
  have hc4len : c4.length = L + 17 := by
    simp only [hc4, List.length_append, hc3len, int32_le_length, List.length_cons,
      List.length_nil]
  have hstep : compileStep (.JmpBack n) (p :: fj) code =
      match patch_jump_target c4 p c4.length with
      | some c5 => .ok (fj, c5)
      | none => .error .patchOutOfBounds := rfl
  set mid : List Nat := int32_le ((c4.length : Int) - (p : Int)) with hmidd
  have hmidlen : mid.length = 4 := int32_le_length _
  have hpatch : patch_jump_target c4 p c4.length = some (c4.take (p - 4) ++ mid ++ c4.drop p) := by
    unfold patch_jump_target
    rw [if_pos ⟨h4, by omega⟩]
  set c5 : List Nat := c4.take (p - 4) ++ mid ++ c4.drop p with hc5
  have htklen : (c4.take (p - 4)).length = p - 4 := by
    simp only [List.length_take]
    omega
  have hqlen : (c4.take (p - 4) ++ mid).length = p := by
    simp only [List.length_append, htklen, hmidlen]
    omega
  have hdrop_c5 : ∀ m, p ≤ m → c5.drop m = c4.drop m := by
    intro m hm
    rw [hc5, List.append_assoc, ← List.append_assoc,
      List.drop_append_eq_append_drop,
      List.drop_eq_nil_of_le (by rw [hqlen]; omega), List.nil_append, hqlen,
      List.drop_drop]
    congr 1
    omega
  have hrelval : rel = (p : Int) - ((L + 17 : Nat) : Int) := by
    rw [hrel, hc3len]
  have hlen2 : (c3 ++ [0x0F, 0x85]).length = L + 13 := by
    simp only [List.length_append, hc3len, List.length_cons, List.length_nil]
  have hdrop13 : c4.drop (L + 13) = int32_le rel := by
    rw [hc4, List.drop_append_eq_append_drop, hlen2, Nat.sub_self,
      List.drop_eq_nil_of_le (by rw [hlen2]), List.nil_append, List.drop_zero]
  have hmid_slice : (c5.drop (p - 4)).take 4 = mid := by
    rw [hc5, List.append_assoc, List.drop_append_eq_append_drop,
      List.drop_eq_nil_of_le (by rw [htklen]), List.nil_append, htklen,
      Nat.sub_self, List.drop_zero, List.take_append_eq_append_take,
      List.take_all_of_le (by rw [hmidlen]), Nat.sub_eq_zero_of_le (by rw [hmidlen]),
      List.take_zero, List.append_nil]
  refine ⟨c5, ?_, ?_, ?_, ?_, ?_, ?_⟩
  · rw [hstep, hpatch]
  · rw [hc5]
    simp only [List.length_append, htklen, hmidlen, List.length_drop, hc4len]
    omega
  · rw [hdrop_c5 (L + 11) (by omega), hc4, List.append_assoc,
      List.drop_append_eq_append_drop,
      List.drop_eq_nil_of_le (by rw [hc3len]), List.nil_append, hc3len,
      Nat.sub_self, List.drop_zero, List.take_append_eq_append_take]
    rfl
  · unfold jump_target_at
    rw [show L + 17 - 4 = L + 13 by omega, hdrop_c5 (L + 13) (by omega), hdrop13,
      List.take_all_of_le (by rw [int32_le_length])]
    rw [decodeI32_int32_le rel (by rw [hrelval]; push_cast; omega)
      (by rw [hrelval]; push_cast; omega)]
    rw [hrelval]
    push_cast
    ring
  · rw [hmid_slice, hmidd, hc4len]
    push_cast
    rfl
  · rw [hmid_slice, hmidd,
      decodeI32_int32_le _ (by rw [hc4len]; push_cast; omega)
        (by rw [hc4len]; push_cast; omega)]
    rw [hc4len]
    push_cast
    ring

/-- Counterexample to C1 as stated: for the parser-accepted program of
`"[]"`, the `jne` emitted for the `JmpBack` (opcode bytes at offsets 28–29,
ending at offset 34) branches to offset 17 — the code offset one past the
opener's `je`, i.e. the loop-body start — while the code offset of the first
byte emitted for the matching `JmpForward` opener (its `mov RAX,[RSI]`, bytes
`48 8B 06` at offset 0) is 0, and `17 ≠ 0`. -/
theorem C1_jne_targets_body_not_opener :
    parse_program [91, 93] = .ok [.JmpForward 2, .JmpBack 1] ∧
    ∃ c, compile [.JmpForward 2, .JmpBack 1] = .ok c ∧
      c.take 3 = [0x48, 0x8B, 0x06] ∧
      (c.drop 28).take 2 = [0x0F, 0x85] ∧
      jump_target_at c 34 = (17 : Int) ∧
      (17 : Int) ≠ (0 : Int) :=
  ⟨by decide,
   ⟨[0x48, 0x8B, 0x06, 0x0F, 0xB6, 0x04, 0x07, 0x48, 0x83, 0xF8, 0x00,
     0x0F, 0x84, 0x11, 0x00, 0x00, 0x00, 0x48, 0x8B, 0x06, 0x0F, 0xB6, 0x04, 0x07,
     0x48, 0x83, 0xF8, 0x00, 0x0F, 0x85, 0xEF, 0xFF, 0xFF, 0xFF, 0xC3], by decide⟩⟩

/-- Witness for C1 (amended) at patch offset `p = 17` over a 17-byte buffer:
the `jne` ends at 34 and branches to 17, and bytes `[13, 17)` are patched to
encode `34 − 17`. -/
theorem C1_jmpback_translation_witness :
    ∃ code', compileStep (.JmpBack 1) [17] (List.replicate 17 0) = .ok ([], code') ∧
      code'.length = 34 ∧
      (code'.drop 28).take 2 = [0x0F, 0x85] ∧
      jump_target_at code' 34 = (17 : Int) ∧
      (code'.drop 13).take 4 = int32_le ((34 : Int) - (17 : Int)) ∧
      (17 : Int) + decodeI32 ((code'.drop 13).take 4) = (34 : Int) :=
  C1_jmpback_translation 1 17 [] (List.replicate 17 0) (by decide) (by decide) (by decide)

/-! ### Compile never fails on bracket bookkeeping (C5, C10) -/

lemma output_once_some (code : List Nat) :
    ∃ c, output_once code = some c ∧ code.length ≤ c.length :=
  ⟨_, rfl, by simp [emit, emit_syscall]⟩

lemma output_rep_some : ∀ (v : Nat) (code : List Nat),
    ∃ c, output_rep v code = some c ∧ code.length ≤ c.length := by
  intro v
  induction v with
  | zero => intro code; exact ⟨code, rfl, le_rfl⟩
  | succ v ih =>
    intro code
    obtain ⟨c1, hc1, hl1⟩ := output_once_some code
    obtain ⟨c2, hc2, hl2⟩ := ih c1
    refine ⟨c2, ?_, le_trans hl1 hl2⟩
    show (output_once code).bind (fun c => output_rep v c) = some c2
    rw [hc1]
    exact hc2

lemma compileLoop_cons_step (ins : Instruction) (rest : List Instruction)
    (fj code fj2 c2 : List Nat)
    (hstep : compileStep ins fj code = .ok (fj2, c2)) :
    compileLoop (ins :: rest) fj code = compileLoop rest fj2 c2 := by
  show (match compileStep ins fj code with
    | Except.error e => (Except.error e : Except JitError (List Nat))
    | Except.ok r => compileLoop rest r.1 r.2) = _
  rw [hstep]

lemma compileLoop_inv :
    ∀ (rest : List Instruction) (fj code : List Nat),
      (∀ q ∈ fj, 4 ≤ q ∧ q ≤ code.length) →
      (∀ k, ((rest.take k).countP isJB) ≤ fj.length + (rest.take k).countP isJF) →
      ((∃ m, Instruction.Input m ∈ rest) → compileLoop rest fj code = .error .todoInput) ∧
      ((∀ m, Instruction.Input m ∉ rest) → ∃ c, compileLoop rest fj code = .ok c) := by
  intro rest
  induction rest with
  | nil =>
    intro fj code hfj hbal
    constructor
    · rintro ⟨m, hm⟩
      cases hm
    · intro _
      exact ⟨code, rfl⟩
  | cons ins rest ih =>
    intro fj code hfj hbal
    have hcont : ∀ (fj2 c2 : List Nat), compileStep ins fj code = .ok (fj2, c2) →
        (∀ q ∈ fj2, 4 ≤ q ∧ q ≤ c2.length) →
        (∀ k, ((rest.take k).countP isJB) ≤ fj2.length + (rest.take k).countP isJF) →
        ((∃ m, Instruction.Input m ∈ ins :: rest) →
          compileLoop (ins :: rest) fj code = .error .todoInput) ∧
        ((∀ m, Instruction.Input m ∉ ins :: rest) →
          ∃ c, compileLoop (ins :: rest) fj code = .ok c) := by
      intro fj2 c2 hstep hfj2 hbal2
      rw [compileLoop_cons_step ins rest fj code fj2 c2 hstep]
      constructor
      · rintro ⟨m, hm⟩
        rcases List.mem_cons.mp hm with heq | hm'
        · rw [← heq] at hstep
          simp only [compileStep] at hstep
          exact Except.noConfusion hstep
        · exact (ih fj2 c2 hfj2 hbal2).1 ⟨m, hm'⟩
      · intro hno
        exact (ih fj2 c2 hfj2 hbal2).2 (fun m hm => hno m (List.mem_cons_of_mem _ hm))
    cases ins with
    | Input m =>
      constructor
      · intro _
        rfl
      · intro hno
        exact absurd (List.mem_cons_self _ _) (hno m)
    | AddrRight v =>
      obtain ⟨c2, hstep, hlen⟩ :
          ∃ c2, compileStep (.AddrRight v) fj code = .ok (fj, c2) ∧
            code.length ≤ c2.length := ⟨_, rfl, by simp [emit]⟩
      refine hcont fj c2 hstep
        (fun q hq => ⟨(hfj q hq).1, le_trans (hfj q hq).2 hlen⟩) ?_
      intro k
      have hb := hbal (k + 1)
      simp [List.take_succ_cons, List.countP_cons, isJB, isJF] at hb
      omega
    | AddrLeft v =>
      obtain ⟨c2, hstep, hlen⟩ :
          ∃ c2, compileStep (.AddrLeft v) fj code = .ok (fj, c2) ∧
            code.length ≤ c2.length := ⟨_, rfl, by simp [emit]⟩
      refine hcont fj c2 hstep
        (fun q hq => ⟨(hfj q hq).1, le_trans (hfj q hq).2 hlen⟩) ?_
      intro k
      have hb := hbal (k + 1)
      simp [List.take_succ_cons, List.countP_cons, isJB, isJF] at hb
      omega
    | Inc v =>
      obtain ⟨c2, hstep, hlen⟩ :
          ∃ c2, compileStep (.Inc v) fj code = .ok (fj, c2) ∧
            code.length ≤ c2.length := ⟨_, rfl, by simp [emit]⟩
      refine hcont fj c2 hstep
        (fun q hq => ⟨(hfj q hq).1, le_trans (hfj q hq).2 hlen⟩) ?_
      intro k
      have hb := hbal (k + 1)
      simp [List.take_succ_cons, List.countP_cons, isJB, isJF] at hb
      omega
    | Dec v =>
      obtain ⟨c2, hstep, hlen⟩ :
          ∃ c2, compileStep (.Dec v) fj code = .ok (fj, c2) ∧
            code.length ≤ c2.length := ⟨_, rfl, by simp [emit]⟩
      refine hcont fj c2 hstep
        (fun q hq => ⟨(hfj q hq).1, le_trans (hfj q hq).2 hlen⟩) ?_
      intro k
      have hb := hbal (k + 1)
      simp [List.take_succ_cons, List.countP_cons, isJB, isJF] at hb
      omega
    | Output v =>
      obtain ⟨c2, hc2, hlen⟩ := output_rep_some v code
      have hstep : compileStep (.Output v) fj code = .ok (fj, c2) := by
        show (ofOption (output_rep v code)).bind (fun c => .ok (fj, c)) = _
        rw [hc2]
        rfl
      refine hcont fj c2 hstep
        (fun q hq => ⟨(hfj q hq).1, le_trans (hfj q hq).2 hlen⟩) ?_
      intro k
      have hb := hbal (k + 1)
      simp [List.take_succ_cons, List.countP_cons, isJB, isJF] at hb
      omega
    | JmpForward tv =>
      obtain ⟨c4, hstep, hlen⟩ :
          ∃ c4, compileStep (.JmpForward tv) fj code = .ok (c4.length :: fj, c4) ∧
            c4.length = code.length + 17 :=
        ⟨_, rfl, by simp [emit, emit_jump_if_zero, int32_le_length]⟩
      refine hcont (c4.length :: fj) c4 hstep ?_ ?_
      · intro q hq
        rcases List.mem_cons.mp hq with rfl | hq
        · omega
        · exact ⟨(hfj q hq).1, by have := (hfj q hq).2; omega⟩
      · intro k
        have hb := hbal (k + 1)
        simp [List.take_succ_cons, List.countP_cons, isJB, isJF] at hb
        simp only [List.length_cons]
        omega
    | JmpBack tv =>
      have h1 : 1 ≤ fj.length := by
        have hb := hbal 1
        simp [List.take_succ_cons, List.countP_cons, List.countP_nil, isJB, isJF] at hb
        omega
      obtain ⟨q, fj', rfl⟩ : ∃ q fj', fj = q :: fj' := by
        cases fj with
        | nil => simp at h1
        | cons a b => exact ⟨a, b, rfl⟩
      obtain ⟨hq4, hqle⟩ := hfj q (List.mem_cons_self _ _)
      set c3 : List Nat := ((code ++ [0x48, 0x8B, 0x06]) ++ [0x0F, 0xB6, 0x04, 0x07]) ++
        [0x48, 0x83, 0xF8, 0x00] with hc3
      set c4 : List Nat := (c3 ++ [0x0F, 0x85]) ++
        int32_le ((q : Int) - ((c3.length + 6 : Nat) : Int)) with hc4
      have hc4len : c4.length = code.length + 17 := by
        simp only [hc4, hc3, List.length_append, int32_le_length, List.length_cons,
          List.length_nil]
      have hstep : compileStep (.JmpBack tv) (q :: fj') code =
          match patch_jump_target c4 q c4.length with
          | some c5 => .ok (fj', c5)
          | none => .error .patchOutOfBounds := rfl
      have hpatch : patch_jump_target c4 q c4.length =
          some (c4.take (q - 4) ++ int32_le ((c4.length : Int) - (q : Int)) ++
            c4.drop q) := by
        unfold patch_jump_target
        rw [if_pos ⟨hq4, by omega⟩]
      set c5 : List Nat := c4.take (q - 4) ++ int32_le ((c4.length : Int) - (q : Int)) ++
        c4.drop q with hc5
      have hc5len : c5.length = c4.length := by
        simp only [hc5, List.length_append, List.length_take, int32_le_length,
          List.length_drop]
        omega
      have hstep2 : compileStep (.JmpBack tv) (q :: fj') code = .ok (fj', c5) := by
        rw [hstep, hpatch]
      refine hcont fj' c5 hstep2 ?_ ?_
      · intro r hr
        have hrm := hfj r (List.mem_cons_of_mem _ hr)
        exact ⟨hrm.1, by have := hrm.2; omega⟩
      · intro k
        have hb := hbal (k + 1)
        simp [List.take_succ_cons, List.countP_cons, isJB, isJF,
          List.length_cons] at hb
        omega

/-- **C5.** For every parser-produced program containing an `Input`
instruction, the JIT compile step fails with the unsupported-operation
failure (`todo!()` on `Instruction::Input`, modelled as the `todoInput`
error value): the failure is the result of `compile`, nothing recovers it,
and compilation does not succeed. -/
theorem C5_input_unsupported (src : List Nat) (prog : List Instruction)
    (hparse : parse_program src = .ok prog) (m : Nat)
    (hmem : Instruction.Input m ∈ prog) :
    compile prog = .error .todoInput := by
  obtain ⟨fj, hinv⟩ := parse_program_inv src prog hparse
  have h := (compileLoop_inv prog [] [] (by simp)
    (fun k => by simpa using hinv.prefixes k)).1 ⟨m, hmem⟩
  unfold compile
  rw [h]

/-- Witness for C5: the source `","` parses to `[Input 1]`, whose compilation
fails with the unsupported-input error. -/
theorem C5_input_unsupported_witness :
    compile [Instruction.Input 1] = .error .todoInput :=
  C5_input_unsupported [44] [.Input 1] (by decide) 1 (by decide)

/-- **C10.** For every program produced by a successful parse, the JIT
compiler never fails on its patch bookkeeping: the only possible failure is
the unsupported `Input` (so the `.expect` on the patch stack cannot fire and
every patch write stays within the code buffer), and compilation of any
parser-produced program without `Input` succeeds outright. -/
theorem C10_patch_bookkeeping (src : List Nat) (prog : List Instruction)
    (hparse : parse_program src = .ok prog) :
    (∀ e, compile prog = .error e → e = .todoInput) ∧
    ((∀ m, Instruction.Input m ∉ prog) → ∃ c, compile prog = .ok c) := by
  obtain ⟨fj, hinv⟩ := parse_program_inv src prog hparse
  have hloop := compileLoop_inv prog [] [] (by simp)
    (fun k => by simpa using hinv.prefixes k)
  constructor
  · intro e he
    by_cases hin : ∃ m, Instruction.Input m ∈ prog
    · have h1 := hloop.1 hin
      unfold compile at he
      rw [h1] at he
      injection he with he
      exact he.symm
    · obtain ⟨c, hc⟩ := hloop.2 (by push_neg at hin; exact hin)
      unfold compile at he
      rw [hc] at he
      cases he
  · intro hno
    obtain ⟨c, hc⟩ := hloop.2 hno
    refine ⟨emit_return c, ?_⟩
    unfold compile
    rw [hc]

/-- Witness for C10: the bracket program of `"[]"` compiles successfully —
in particular its `JmpBack` found a stacked patch offset and the patch write
was in bounds. -/
theorem C10_patch_bookkeeping_witness :
    ∃ c, compile [Instruction.JmpForward 2, Instruction.JmpBack 1] = .ok c :=
  (C10_patch_bookkeeping [91, 93] [.JmpForward 2, .JmpBack 1] (by decide)).2
    (by intro m hm; simp at hm)

end RustBrain
